import Mathlib

/-!
Verification of `src/markdown_quote.py` (repository scuptio/markdown_quote).

The Python source is shallowly embedded below:

* `topological_sort` (source lines 31-88, Kahn algorithm over a dependency
  dict) is embedded generically over a node type with decidable equality.
  The Python dict `{key: set_of_dependents}` is embedded as an association
  list `List (ν × List ν)`; Python set/dict iteration is embedded as list
  order (the properties proved are insensitive to that order).
  `defaultdict(int)` is embedded as a total function into `Int` (missing
  keys read as `0`), exactly as Python integer arithmetic behaves.
* the text pipeline (regex grammar, path-spec parsing, line extraction,
  per-document rewriting, dependency pre-scan) is embedded further below
  over `Str := List Char`, with the regular expressions of the source
  transliterated into a pattern AST run by a backtracking matcher with the
  semantics of Python `re` (leftmost match, alternation priority, greedy
  and lazy repetition).
-/

namespace MarkdownQuote

section Topo

variable {ν : Type} [DecidableEq ν]

/-- All edges `(key, dependent)` of the dependency dict, in iteration order.
Mirrors the nested loop of source lines 59-62. -/
def edgesOf (deps : List (ν × List ν)) : List (ν × ν) :=
  deps.flatMap fun kv => kv.2.map fun d => (kv.1, d)

/-- The node set of the graph: every key and every dependent (source lines
52-55); first-encounter order, deduplicated, mirroring a Python `set`. -/
def allNodes (deps : List (ν × List ν)) : List ν :=
  (deps.flatMap fun kv => kv.1 :: kv.2).dedup

/-- Number of edges ending in `v` whose source has not been popped into
`result` yet.  `remainingInDegree deps [] v` is the initial in-degree
computed at source line 62; the loop of lines 72-81 keeps
`in_degree[v] = remainingInDegree deps result v` (proved below). -/
def remainingInDegree (deps : List (ν × List ν)) (result : List ν) (v : ν) : Nat :=
  (edgesOf deps).countP fun e => decide (e.2 = v ∧ e.1 ∉ result)

/-- `graph[u]`: the dependents of `u` in edge-iteration order
(source lines 59-61 append per edge). -/
def graphSucc (deps : List (ν × List ν)) (u : ν) : List ν :=
  (edgesOf deps).filterMap fun e => if e.1 = u then some e.2 else none

/-- The inner loop of source lines 77-81: decrement `in_degree` of each
neighbour, enqueue a neighbour exactly when its count reaches `0`. -/
def processNeighbors : List ν → (ν → Int) → List ν → ((ν → Int) × List ν)
  | [], deg, queue => (deg, queue)
  | v :: rest, deg, queue =>
      let d := deg v - 1
      let deg2 : ν → Int := fun x => if x = v then d else deg x
      let queue2 := if d = 0 then queue ++ [v] else queue
      processNeighbors rest deg2 queue2

/-- Sum of the (truncated) in-degree counters over a node list; measure for
the termination of the Kahn loop. -/
def massOn (l : List ν) (deg : ν → Int) : Nat :=
  (l.map fun n => (deg n).toNat).sum

omit [DecidableEq ν] in
theorem sum_map_exchange (l : List ν) (hl : l.Nodup) (v : ν) (hv : v ∈ l)
    (f g : ν → Nat) (hfg : ∀ x ∈ l, x ≠ v → g x = f x) :
    (l.map g).sum + f v = (l.map f).sum + g v := by
  induction l with
  | nil => cases hv
  | cons a t ih =>
      rcases List.mem_cons.mp hv with rfl | hvt
      · have ht : ∀ x ∈ t, g x = f x := by
          intro x hx
          exact hfg x (List.mem_cons_of_mem _ hx) (fun h => (List.nodup_cons.mp hl).1 (h ▸ hx))
        have : t.map g = t.map f := List.map_congr_left ht
        simp [this]
        omega
      · have hav : a ≠ v := by
          intro h
          exact (List.nodup_cons.mp hl).1 (h ▸ hvt)
        have hga : g a = f a := hfg a (List.mem_cons_self _ _) hav
        have := ih (List.nodup_cons.mp hl).2 hvt
          (fun x hx hxv => hfg x (List.mem_cons_of_mem _ hx) hxv)
        simp [hga]
        omega

theorem massOn_update (l : List ν) (hl : l.Nodup) (v : ν) (hv : v ∈ l)
    (deg : ν → Int) (d : Int) :
    massOn l (fun x => if x = v then d else deg x) + (deg v).toNat
      = massOn l deg + d.toNat := by
  have := sum_map_exchange l hl v hv (fun n => (deg n).toNat)
    (fun n => ((if n = v then d else deg n) : Int).toNat)
    (fun x _ hxv => by simp [hxv])
  simpa [massOn] using this

theorem processNeighbors_measure (l : List ν) (hl : l.Nodup) :
    ∀ (ns : List ν) (deg : ν → Int) (queue : List ν), (∀ v ∈ ns, v ∈ l) →
      (processNeighbors ns deg queue).2.length + massOn l (processNeighbors ns deg queue).1
        ≤ queue.length + massOn l deg := by
  intro ns
  induction ns with
  | nil => intro deg queue _; simp [processNeighbors]
  | cons v rest ih =>
      intro deg queue hmem
      have hv : v ∈ l := hmem v (List.mem_cons_self _ _)
      have hrest : ∀ x ∈ rest, x ∈ l := fun x hx => hmem x (List.mem_cons_of_mem _ hx)
      rw [processNeighbors]
      have hupd := massOn_update l hl v hv deg (deg v - 1)
      by_cases hd : deg v - 1 = 0
      · have h1 : massOn l (fun x => if x = v then deg v - 1 else deg x) + 1
            = massOn l deg := by
          have hv1 : deg v = 1 := by omega
          rw [hv1] at hupd ⊢
          simpa using hupd
        have := ih (fun x => if x = v then deg v - 1 else deg x) (queue ++ [v]) hrest
        simp only [processNeighbors, hd, if_pos] at *
        simp at this ⊢
        omega
      · have h1 : massOn l (fun x => if x = v then deg v - 1 else deg x) ≤ massOn l deg := by
          have : (deg v - 1).toNat ≤ (deg v).toNat := Int.toNat_le_toNat (by omega)
          omega
        have := ih (fun x => if x = v then deg v - 1 else deg x) queue hrest
        simp only [processNeighbors, hd, if_neg, if_false] at *
        omega

theorem mem_allNodes_left {deps : List (ν × List ν)} {u v : ν}
    (h : (u, v) ∈ edgesOf deps) : u ∈ allNodes deps := by
  rw [edgesOf, List.mem_flatMap] at h
  obtain ⟨kv, hkv, hmem⟩ := h
  rw [List.mem_map] at hmem
  obtain ⟨d, _, heq⟩ := hmem
  rw [allNodes, List.mem_dedup, List.mem_flatMap]
  exact ⟨kv, hkv, List.mem_cons.mpr (Or.inl (congrArg Prod.fst heq).symm)⟩

theorem mem_allNodes_right {deps : List (ν × List ν)} {u v : ν}
    (h : (u, v) ∈ edgesOf deps) : v ∈ allNodes deps := by
  rw [edgesOf, List.mem_flatMap] at h
  obtain ⟨kv, hkv, hmem⟩ := h
  rw [List.mem_map] at hmem
  obtain ⟨d, hd, heq⟩ := hmem
  rw [allNodes, List.mem_dedup, List.mem_flatMap]
  refine ⟨kv, hkv, ?_⟩
  have : d = v := congrArg Prod.snd heq
  exact List.mem_cons_of_mem _ (this ▸ hd)

theorem graphSucc_mem {deps : List (ν × List ν)} {u v : ν} :
    v ∈ graphSucc deps u ↔ (u, v) ∈ edgesOf deps := by
  rw [graphSucc, List.mem_filterMap]
  constructor
  · rintro ⟨e, he, hif⟩
    by_cases h : e.1 = u
    · simp [h] at hif
      have : e = (u, v) := Prod.ext h hif
      exact this ▸ he
    · simp [h] at hif
  · intro h
    exact ⟨(u, v), h, by simp⟩

/-- The Kahn loop of source lines 72-81: pop the queue head, append it to
the result, decrement the in-degrees of its successors.  The `while`
loop is embedded with explicit fuel; `topological_sort` below supplies
`queue.length + massOn (allNodes deps) deg`, which every iteration
strictly decreases (`processNeighbors_measure`), so the fuel never runs
out before the queue empties (the main theorems depend on this and prove
it along the way). -/
def kahnLoop (deps : List (ν × List ν)) : Nat → (ν → Int) → List ν → List ν → List ν
  | 0, _, _, result => result
  | _ + 1, _, [], result => result
  | fuel + 1, deg, current :: rest, result =>
      let p := processNeighbors (graphSucc deps current) deg rest
      kahnLoop deps fuel p.1 p.2 (result ++ [current])

/-- Source lines 31-88 (`topological_sort`): Kahn algorithm; returns `[]`
when the produced order misses a node (cycle detected, lines 83-86). -/
def topological_sort (deps : List (ν × List ν)) : List ν :=
  let deg : ν → Int := fun v => (remainingInDegree deps [] v : Int)
  let queue := (allNodes deps).filter fun n => deg n == 0
  let result := kahnLoop deps (queue.length + massOn (allNodes deps) deg) deg queue []
  if result.length = (allNodes deps).length then result else []

theorem remaining_eq_zero_iff {deps : List (ν × List ν)} {result : List ν} {v : ν} :
    remainingInDegree deps result v = 0 ↔
      ∀ e ∈ edgesOf deps, e.2 = v → e.1 ∈ result := by
  rw [remainingInDegree, List.countP_eq_zero]
  constructor
  · intro h e he h2
    by_contra h1
    exact h e he (by simp [h2, h1])
  · intro h e he
    simp only [decide_eq_true_eq, not_and, not_not]
    intro h2
    exact h e he h2

theorem remaining_exists_of_ne_zero {deps : List (ν × List ν)} {result : List ν} {v : ν}
    (h : remainingInDegree deps result v ≠ 0) :
    ∃ e ∈ edgesOf deps, e.2 = v ∧ e.1 ∉ result := by
  have : 0 < remainingInDegree deps result v := Nat.pos_of_ne_zero h
  rw [remainingInDegree, List.countP_pos_iff] at this
  obtain ⟨e, he, hp⟩ := this
  exact ⟨e, he, by simpa using hp⟩

theorem ite_one_tt : (if true = true then (1 : Nat) else 0) = 1 := rfl

theorem ite_one_ff : (if false = true then (1 : Nat) else 0) = 0 := rfl

theorem remaining_split (deps : List (ν × List ν)) (result : List ν) (current : ν)
    (hc : current ∉ result) (v : ν) :
    remainingInDegree deps result v
      = remainingInDegree deps (result ++ [current]) v + (graphSucc deps current).count v := by
  rw [remainingInDegree, remainingInDegree, graphSucc]
  induction edgesOf deps with
  | nil => simp
  | cons e t ih =>
      simp only [List.countP_cons]
      by_cases h1 : e.1 = current
      · have hf : List.filterMap (fun e => if e.1 = current then some e.2 else none) (e :: t)
            = e.2 :: List.filterMap (fun e => if e.1 = current then some e.2 else none) t := by
          simp [List.filterMap_cons, h1]
        rw [hf]
        by_cases h2 : e.2 = v
        · have ha : decide (e.2 = v ∧ e.1 ∉ result) = true := by
            simp only [decide_eq_true_eq]
            exact ⟨h2, h1 ▸ hc⟩
          have hb : decide (e.2 = v ∧ e.1 ∉ result ++ [current]) = false := by
            simp only [decide_eq_false_iff_not, not_and, not_not]
            intro _
            exact List.mem_append.mpr (Or.inr (h1 ▸ List.mem_singleton.mpr rfl))
          rw [ha, hb, List.count_cons]
          have hvq : (e.2 == v) = true := beq_iff_eq.mpr h2
          rw [hvq, ite_one_tt, ite_one_ff]
          omega
        · have ha : decide (e.2 = v ∧ e.1 ∉ result) = false := by
            simp only [decide_eq_false_iff_not, not_and]
            exact fun h => absurd h h2
          have hb : decide (e.2 = v ∧ e.1 ∉ result ++ [current]) = false := by
            simp only [decide_eq_false_iff_not, not_and]
            exact fun h => absurd h h2
          rw [ha, hb, List.count_cons]
          have hvq : (e.2 == v) = false := beq_eq_false_iff_ne.mpr h2
          rw [hvq, ite_one_ff]
          omega
      · have hf : List.filterMap (fun e => if e.1 = current then some e.2 else none) (e :: t)
            = List.filterMap (fun e => if e.1 = current then some e.2 else none) t := by
          simp [List.filterMap_cons, h1]
        rw [hf]
        have hiff : (e.1 ∉ result ++ [current]) ↔ (e.1 ∉ result) := by
          rw [List.mem_append, List.mem_singleton]
          constructor
          · intro h hm; exact h (Or.inl hm)
          · intro h hm
            rcases hm with hm | hm
            · exact h hm
            · exact h1 hm
        have hb : decide (e.2 = v ∧ e.1 ∉ result ++ [current])
            = decide (e.2 = v ∧ e.1 ∉ result) :=
          decide_eq_decide.mpr (and_congr_right fun _ => hiff)
        rw [hb]
        omega

/-- Invariant of the inner decrement loop (source lines 77-81), stated for
the result list `result2` that already contains the popped node. -/
structure PNInv (deps : List (ν × List ν)) (current : ν) (result2 : List ν)
    (deg : ν → Int) (ns q : List ν) : Prop where
  nodup : (result2 ++ q).Nodup
  mem : ∀ x ∈ result2 ++ q, x ∈ allNodes deps
  degEq : ∀ v, deg v = (remainingInDegree deps result2 v : Int) + (ns.count v : Int)
  predsQ : ∀ v ∈ result2 ++ q, ∀ e ∈ edgesOf deps, e.2 = v → e.1 ∈ result2
  disj : ∀ x ∈ q, x ∉ ns
  nsEdge : ∀ v ∈ ns, (current, v) ∈ edgesOf deps
  star : ∀ w, (current, w) ∈ edgesOf deps → w ∉ result2
  zero : ∀ v ∈ allNodes deps, deg v = 0 → v ∈ result2 ++ q

theorem processNeighbors_inv {deps : List (ν × List ν)} {current : ν} {result2 : List ν} :
    ∀ {ns : List ν} {deg : ν → Int} {q : List ν},
      PNInv deps current result2 deg ns q →
      PNInv deps current result2 (processNeighbors ns deg q).1 []
        (processNeighbors ns deg q).2 := by
  intro ns
  induction ns with
  | nil => intro deg q h; exact h
  | cons v rest ih =>
      intro deg q h
      simp only [processNeighbors]
      have hcount : deg v = (remainingInDegree deps result2 v : Int)
          + ((rest.count v : Int) + 1) := by
        have h0 := h.degEq v
        rw [List.count_cons, beq_self_eq_true, ite_one_tt] at h0
        push_cast at h0 ⊢
        omega
      have hdegEq2 : ∀ x, (fun x => if x = v then deg v - 1 else deg x) x
          = (remainingInDegree deps result2 x : Int) + (rest.count x : Int) := by
        intro x
        by_cases hx : x = v
        · show (if x = v then deg v - 1 else deg x) = _
          rw [if_pos hx, hx]
          omega
        · show (if x = v then deg v - 1 else deg x) = _
          rw [if_neg hx]
          have h0 := h.degEq x
          have hne : (v == x) = false := beq_eq_false_iff_ne.mpr (Ne.symm hx)
          rw [List.count_cons, hne, ite_one_ff] at h0
          push_cast at h0 ⊢
          omega
      by_cases hd : deg v - 1 = 0
      · -- the counter of `v` reached zero: `v` is enqueued
        have hR : remainingInDegree deps result2 v = 0 ∧ rest.count v = 0 := by
          constructor <;> omega
        have hvq : v ∉ q := fun hq => h.disj v hq (List.mem_cons_self _ _)
        have hvres : v ∉ result2 := h.star v (h.nsEdge v (List.mem_cons_self _ _))
        have hvA : v ∈ allNodes deps :=
          mem_allNodes_right (h.nsEdge v (List.mem_cons_self _ _))
        have hnodup2 : (result2 ++ (q ++ [v])).Nodup := by
          rw [← List.append_assoc]
          rw [List.nodup_append]
          refine ⟨h.nodup, List.nodup_singleton v, ?_⟩
          intro x hx hx2
          rw [List.mem_singleton] at hx2
          subst hx2
          rcases List.mem_append.mp hx with h1 | h2
          · exact hvres h1
          · exact hvq h2
        rw [if_pos hd]
        refine ih ?_
        refine ⟨hnodup2, ?_, hdegEq2, ?_, ?_, ?_, h.star, ?_⟩
        · intro x hx
          rcases List.mem_append.mp hx with h1 | h2
          · exact h.mem x (List.mem_append.mpr (Or.inl h1))
          · rcases List.mem_append.mp h2 with h3 | h4
            · exact h.mem x (List.mem_append.mpr (Or.inr h3))
            · rw [List.mem_singleton] at h4; subst h4; exact hvA
        · intro x hx e he h2
          rcases List.mem_append.mp hx with h1 | hq2
          · exact h.predsQ x (List.mem_append.mpr (Or.inl h1)) e he h2
          · rcases List.mem_append.mp hq2 with h3 | h4
            · exact h.predsQ x (List.mem_append.mpr (Or.inr h3)) e he h2
            · rw [List.mem_singleton] at h4
              subst h4
              have := remaining_eq_zero_iff.mp hR.1 e he h2
              exact this
        · intro x hx
          rcases List.mem_append.mp hx with h1 | h2
          · exact fun hr => h.disj x h1 (List.mem_cons_of_mem _ hr)
          · rw [List.mem_singleton] at h2
            subst h2
            exact fun hr => by
              have := List.count_eq_zero.mp hR.2
              exact this hr
        · exact fun x hx => h.nsEdge x (List.mem_cons_of_mem _ hx)
        · intro x hxA hx0
          by_cases hxv : x = v
          · subst hxv
            exact List.mem_append.mpr (Or.inr (List.mem_append.mpr (Or.inr (List.mem_singleton.mpr rfl))))
          · have hdx : deg x = 0 := by
              have h3 : (if x = v then deg v - 1 else deg x) = 0 := hx0
              rw [if_neg hxv] at h3
              exact h3
            have := h.zero x hxA hdx
            rcases List.mem_append.mp this with h1 | h2
            · exact List.mem_append.mpr (Or.inl h1)
            · exact List.mem_append.mpr (Or.inr (List.mem_append.mpr (Or.inl h2)))
      · -- the counter did not reach zero: queue unchanged
        rw [if_neg hd]
        refine ih ?_
        refine ⟨h.nodup, h.mem, hdegEq2, h.predsQ, ?_, ?_, h.star, ?_⟩
        · exact fun x hx hr => h.disj x hx (List.mem_cons_of_mem _ hr)
        · exact fun x hx => h.nsEdge x (List.mem_cons_of_mem _ hx)
        · intro x hxA hx0
          by_cases hxv : x = v
          · have h3 : (if x = v then deg v - 1 else deg x) = 0 := hx0
            rw [if_pos hxv] at h3
            exact absurd h3 hd
          · have h3 : (if x = v then deg v - 1 else deg x) = 0 := hx0
            rw [if_neg hxv] at h3
            exact h.zero x hxA h3

/-- Invariant of the outer Kahn loop (source lines 72-81). -/
structure KInv (deps : List (ν × List ν)) (deg : ν → Int) (queue result : List ν) : Prop where
  nodup : (result ++ queue).Nodup
  mem : ∀ x ∈ result ++ queue, x ∈ allNodes deps
  degEq : ∀ v, deg v = (remainingInDegree deps result v : Int)
  preds : ∀ v ∈ result ++ queue, ∀ e ∈ edgesOf deps, e.2 = v → e.1 ∈ result
  order : ∀ e ∈ edgesOf deps, e.2 ∈ result →
    e.1 ∈ result ∧ result.indexOf e.1 < result.indexOf e.2
  zero : ∀ v ∈ allNodes deps, deg v = 0 → v ∈ result ++ queue

/-- What is true of the list produced by the Kahn loop when it ends. -/
structure KPost (deps : List (ν × List ν)) (r : List ν) : Prop where
  nodup : r.Nodup
  mem : ∀ x ∈ r, x ∈ allNodes deps
  order : ∀ e ∈ edgesOf deps, e.2 ∈ r → e.1 ∈ r ∧ r.indexOf e.1 < r.indexOf e.2
  blocked : ∀ v ∈ allNodes deps, v ∉ r → ∃ e ∈ edgesOf deps, e.2 = v ∧ e.1 ∉ r

theorem KPost_of_nil {deps : List (ν × List ν)} {deg : ν → Int} {result : List ν}
    (h : KInv deps deg [] result) : KPost deps result := by
  refine ⟨by simpa using h.nodup, ?_, h.order, ?_⟩
  · intro x hx
    exact h.mem x (by simpa using hx)
  · intro v hvA hvr
    have hdz : deg v ≠ 0 := by
      intro h0
      exact hvr (by simpa using h.zero v hvA h0)
    have hR : remainingInDegree deps result v ≠ 0 := by
      intro h0
      apply hdz
      rw [h.degEq v, h0]
      simp
    exact remaining_exists_of_ne_zero hR

theorem KInv_step {deps : List (ν × List ν)} {deg : ν → Int} {current : ν}
    {rest result : List ν} (h : KInv deps deg (current :: rest) result) :
    KInv deps (processNeighbors (graphSucc deps current) deg rest).1
      (processNeighbors (graphSucc deps current) deg rest).2 (result ++ [current]) := by
  have happ : result ++ current :: rest = (result ++ [current]) ++ rest := by simp
  have hsplit := List.nodup_append.mp h.nodup
  have hcur_notr : current ∉ result := fun hc =>
    hsplit.2.2 hc (List.mem_cons_self _ _)
  have hstar : ∀ w, (current, w) ∈ edgesOf deps → w ∉ result ++ [current] := by
    intro w hw hmem
    rcases List.mem_append.mp hmem with hm | hm
    · exact hcur_notr (h.preds w (List.mem_append.mpr (Or.inl hm)) (current, w) hw rfl)
    · rw [List.mem_singleton] at hm
      subst hm
      exact hcur_notr
        (h.preds w (List.mem_append.mpr (Or.inr (List.mem_cons_self _ _))) (w, w) hw rfl)
  have horder2 : ∀ e ∈ edgesOf deps, e.2 ∈ result ++ [current] →
      e.1 ∈ result ++ [current] ∧
        (result ++ [current]).indexOf e.1 < (result ++ [current]).indexOf e.2 := by
    intro e he hmem
    rcases List.mem_append.mp hmem with hm | hm
    · obtain ⟨h1, h2⟩ := h.order e he hm
      refine ⟨List.mem_append.mpr (Or.inl h1), ?_⟩
      rw [List.indexOf_append_of_mem h1, List.indexOf_append_of_mem hm]
      exact h2
    · rw [List.mem_singleton] at hm
      have h1 : e.1 ∈ result :=
        h.preds current (List.mem_append.mpr (Or.inr (List.mem_cons_self _ _))) e he hm
      refine ⟨List.mem_append.mpr (Or.inl h1), ?_⟩
      rw [List.indexOf_append_of_mem h1, hm, List.indexOf_append_of_not_mem hcur_notr]
      have hlt : result.indexOf e.1 < result.length := List.indexOf_lt_length.mpr h1
      rw [List.indexOf_cons_self]
      omega
  have hpn : PNInv deps current (result ++ [current]) deg (graphSucc deps current) rest := by
    refine ⟨?_, ?_, ?_, ?_, ?_, fun v hv => graphSucc_mem.mp hv, hstar, ?_⟩
    · rw [← happ]; exact h.nodup
    · intro x hx
      rw [← happ] at hx
      exact h.mem x hx
    · intro v
      have h1 := h.degEq v
      have h2 := remaining_split deps result current hcur_notr v
      rw [h1, h2]
      push_cast
      ring
    · intro v hv e he h2
      rw [← happ] at hv
      exact List.mem_append.mpr (Or.inl (h.preds v hv e he h2))
    · intro x hx hgs
      have hedge := graphSucc_mem.mp hgs
      have := h.preds x
        (List.mem_append.mpr (Or.inr (List.mem_cons_of_mem _ hx))) (current, x) hedge rfl
      exact hcur_notr this
    · intro v hvA h0
      have := h.zero v hvA h0
      rw [happ] at this
      exact this
  have hpost := processNeighbors_inv hpn
  refine ⟨hpost.nodup, hpost.mem, ?_, hpost.predsQ, horder2, hpost.zero⟩
  intro v
  have := hpost.degEq v
  simpa using this

theorem kahnLoop_spec (deps : List (ν × List ν)) :
    ∀ (fuel : Nat) (deg : ν → Int) (queue result : List ν),
      KInv deps deg queue result →
      queue.length + massOn (allNodes deps) deg ≤ fuel →
      KPost deps (kahnLoop deps fuel deg queue result) := by
  intro fuel
  induction fuel with
  | zero =>
      intro deg queue result hinv hfuel
      have hq : queue = [] := List.eq_nil_of_length_eq_zero (by omega)
      subst hq
      rw [kahnLoop]
      exact KPost_of_nil hinv
  | succ fuel ih =>
      intro deg queue result hinv hfuel
      cases queue with
      | nil =>
          rw [kahnLoop]
          exact KPost_of_nil hinv
      | cons current rest =>
          simp only [kahnLoop]
          apply ih
          · exact KInv_step hinv
          · have hsub : ∀ v ∈ graphSucc deps current, v ∈ allNodes deps :=
              fun v hv => mem_allNodes_right (graphSucc_mem.mp hv)
            have := processNeighbors_measure (allNodes deps) (List.nodup_dedup _)
              (graphSucc deps current) deg rest hsub
            simp only [List.length_cons] at hfuel
            omega

theorem KInv_init (deps : List (ν × List ν)) :
    KInv deps (fun v => (remainingInDegree deps [] v : Int))
      ((allNodes deps).filter fun n => (remainingInDegree deps [] n : Int) == 0) [] := by
  refine ⟨?_, ?_, fun v => rfl, ?_, ?_, ?_⟩
  · simpa using List.Nodup.filter _ (List.nodup_dedup _)
  · intro x hx
    rw [List.nil_append] at hx
    exact (List.mem_filter.mp hx).1
  · intro v hv e he h2
    rw [List.nil_append] at hv
    have hz := (List.mem_filter.mp hv).2
    rw [beq_iff_eq] at hz
    have hz2 : remainingInDegree deps [] v = 0 := by exact_mod_cast hz
    exact remaining_eq_zero_iff.mp hz2 e he h2
  · intro e _ h2
    simp at h2
  · intro v hvA h0
    rw [List.nil_append]
    rw [List.mem_filter]
    exact ⟨hvA, by rw [beq_iff_eq]; exact h0⟩

/-- A finite nonempty set in which every element has a predecessor under `R`
contains a cycle. -/
theorem cycle_of_all_pred (R : ν → ν → Prop) (S : List ν) (hne : S ≠ [])
    (h : ∀ v ∈ S, ∃ u ∈ S, R u v) : ∃ x, Relation.TransGen R x x := by
  classical
  obtain ⟨v0, hv0⟩ : ∃ v, v ∈ S := by
    cases S with
    | nil => exact absurd rfl hne
    | cons a t => exact ⟨a, List.mem_cons_self _ _⟩
  let f : ℕ → ν := fun n =>
    Nat.rec (motive := fun _ => ν) v0
      (fun _ prev => if hp : prev ∈ S then (h prev hp).choose else prev) n
  have hfS : ∀ n, f n ∈ S := by
    intro n
    induction n with
    | zero => exact hv0
    | succ n ihn =>
        show (if hp : f n ∈ S then (h (f n) hp).choose else f n) ∈ S
        rw [dif_pos ihn]
        exact (h (f n) ihn).choose_spec.1
  have hfR : ∀ n, R (f (n + 1)) (f n) := by
    intro n
    show R (if hp : f n ∈ S then (h (f n) hp).choose else f n) (f n)
    rw [dif_pos (hfS n)]
    exact (h (f n) (hfS n)).choose_spec.2
  have hchain : ∀ i j : ℕ, i < j → Relation.TransGen R (f j) (f i) := by
    intro i j
    induction j with
    | zero => omega
    | succ j ihj =>
        intro hij
        rcases Nat.lt_succ_iff_lt_or_eq.mp hij with hlt | heq
        · exact Relation.TransGen.head (hfR j) (ihj hlt)
        · rw [heq]
          exact Relation.TransGen.single (hfR j)
  have hmap : ∀ a : Fin (S.length + 1), a ∈ (Finset.univ : Finset (Fin (S.length + 1))) →
      f a.1 ∈ S.toFinset := by
    intro a _
    rw [List.mem_toFinset]
    exact hfS a.1
  have hcard : S.toFinset.card < (Finset.univ : Finset (Fin (S.length + 1))).card := by
    rw [Finset.card_univ, Fintype.card_fin]
    exact Nat.lt_succ_of_le S.toFinset_card_le
  obtain ⟨a, _, b, _, hab, hfab⟩ :=
    Finset.exists_ne_map_eq_of_card_lt_of_maps_to hcard hmap
  rcases lt_or_gt_of_ne (fun hv : a = b => hab hv) with hlt | hgt
  · exact ⟨f a.1, hfab ▸ hchain a.1 b.1 hlt⟩
  · exact ⟨f b.1, hfab ▸ hchain b.1 a.1 hgt⟩

/-- For an acyclic graph the Kahn run of lines 64-88 keeps every node and
orders sources before targets. -/
theorem kahn_sorted (deps : List (ν × List ν))
    (hacyc : ∀ x : ν, ¬ Relation.TransGen (fun a b : ν => (a, b) ∈ edgesOf deps) x x) :
    (topological_sort deps).Nodup ∧
      (∀ x, x ∈ topological_sort deps ↔ x ∈ allNodes deps) ∧
      ∀ u v : ν, (u, v) ∈ edgesOf deps →
        (topological_sort deps).indexOf u < (topological_sort deps).indexOf v := by
  have hinit := KInv_init deps
  have hpost := kahnLoop_spec deps
    ((((allNodes deps).filter fun n =>
        (remainingInDegree deps [] n : Int) == 0)).length
      + massOn (allNodes deps) (fun v => (remainingInDegree deps [] v : Int)))
    (fun v => (remainingInDegree deps [] v : Int))
    ((allNodes deps).filter fun n => (remainingInDegree deps [] n : Int) == 0)
    [] hinit (le_refl _)
  set r := kahnLoop deps
    ((((allNodes deps).filter fun n =>
        (remainingInDegree deps [] n : Int) == 0)).length
      + massOn (allNodes deps) (fun v => (remainingInDegree deps [] v : Int)))
    (fun v => (remainingInDegree deps [] v : Int))
    ((allNodes deps).filter fun n => (remainingInDegree deps [] n : Int) == 0)
    [] with hr
  have htop : topological_sort deps = if r.length = (allNodes deps).length then r else [] := rfl
  have hcomplete : ∀ x ∈ allNodes deps, x ∈ r := by
    by_contra hnc
    push_neg at hnc
    obtain ⟨x0, hx0A, hx0r⟩ := hnc
    have hSpred : ∀ v ∈ (allNodes deps).filter (fun v => decide (v ∉ r)),
        ∃ u ∈ (allNodes deps).filter (fun v => decide (v ∉ r)), (u, v) ∈ edgesOf deps := by
      intro v hv
      have hvA : v ∈ allNodes deps := (List.mem_filter.mp hv).1
      have hvr : v ∉ r := by simpa using (List.mem_filter.mp hv).2
      obtain ⟨e, he, h2, h1⟩ := hpost.blocked v hvA hvr
      refine ⟨e.1, ?_, ?_⟩
      · rw [List.mem_filter]
        refine ⟨mem_allNodes_left (u := e.1) (v := e.2) ?_, by simpa using h1⟩
        exact he
      · have : (e.1, e.2) = e := rfl
        rw [← h2]
        rw [this]
        exact he
    have hSne : (allNodes deps).filter (fun v => decide (v ∉ r)) ≠ [] := by
      intro hnil
      have : x0 ∈ (allNodes deps).filter (fun v => decide (v ∉ r)) := by
        rw [List.mem_filter]
        exact ⟨hx0A, by simpa using hx0r⟩
      rw [hnil] at this
      simp at this
    obtain ⟨x, hx⟩ := cycle_of_all_pred (fun a b : ν => (a, b) ∈ edgesOf deps)
      ((allNodes deps).filter (fun v => decide (v ∉ r))) hSne hSpred
    exact hacyc x hx
  have hlen : r.length = (allNodes deps).length := by
    have h1 : List.Subperm r (allNodes deps) := List.subperm_of_subset hpost.nodup hpost.mem
    have h2 : List.Subperm (allNodes deps) r :=
      List.subperm_of_subset (List.nodup_dedup _) hcomplete
    exact Nat.le_antisymm h1.length_le h2.length_le
  have htop2 : topological_sort deps = r := by rw [htop, if_pos hlen]
  rw [htop2]
  refine ⟨hpost.nodup, fun x => ⟨fun hx => hpost.mem x hx, fun hx => hcomplete x hx⟩, ?_⟩
  intro u v hedge
  have hv : v ∈ r := hcomplete v (mem_allNodes_right hedge)
  exact (hpost.order (u, v) hedge hv).2

/-- When the graph has a cycle the length check of lines 83-86 fails and
`topological_sort` returns `[]`. -/
theorem kahn_cycle_nil (deps : List (ν × List ν)) (x : ν)
    (hx : Relation.TransGen (fun a b : ν => (a, b) ∈ edgesOf deps) x x) :
    topological_sort deps = [] := by
  have hinit := KInv_init deps
  have hpost := kahnLoop_spec deps
    ((((allNodes deps).filter fun n =>
        (remainingInDegree deps [] n : Int) == 0)).length
      + massOn (allNodes deps) (fun v => (remainingInDegree deps [] v : Int)))
    (fun v => (remainingInDegree deps [] v : Int))
    ((allNodes deps).filter fun n => (remainingInDegree deps [] n : Int) == 0)
    [] hinit (le_refl _)
  set r := kahnLoop deps
    ((((allNodes deps).filter fun n =>
        (remainingInDegree deps [] n : Int) == 0)).length
      + massOn (allNodes deps) (fun v => (remainingInDegree deps [] v : Int)))
    (fun v => (remainingInDegree deps [] v : Int))
    ((allNodes deps).filter fun n => (remainingInDegree deps [] n : Int) == 0)
    [] with hr
  have htop : topological_sort deps = if r.length = (allNodes deps).length then r else [] := rfl
  by_cases hlen : r.length = (allNodes deps).length
  · exfalso
    have h1 : List.Subperm r (allNodes deps) := List.subperm_of_subset hpost.nodup hpost.mem
    have hperm : List.Perm r (allNodes deps) := h1.perm_of_length_le (le_of_eq hlen.symm)
    have hsup : ∀ y ∈ allNodes deps, y ∈ r := fun y hy => hperm.mem_iff.mpr hy
    have hxA : x ∈ allNodes deps := by
      have hlast : ∀ {a b : ν},
          Relation.TransGen (fun a b : ν => (a, b) ∈ edgesOf deps) a b →
            ∃ c, (c, b) ∈ edgesOf deps := by
        intro a b hab
        induction hab with
        | single h1 => exact ⟨_, h1⟩
        | tail _ h1 _ => exact ⟨_, h1⟩
      obtain ⟨c, hc⟩ := hlast hx
      exact mem_allNodes_right hc
    have hxr : x ∈ r := hsup x hxA
    have hlift : ∀ a b : ν,
        Relation.TransGen (fun a b : ν => (a, b) ∈ edgesOf deps) a b → b ∈ r →
          a ∈ r ∧ r.indexOf a < r.indexOf b := by
      intro a b hab
      induction hab with
      | single h1 =>
          intro hb
          exact hpost.order (a, _) h1 hb
      | tail _ h1 ih =>
          intro hc
          have h2 := hpost.order (_, _) h1 hc
          have h3 := ih h2.1
          exact ⟨h3.1, lt_trans h3.2 h2.2⟩
    have := (hlift x x hx hxr).2
    omega
  · rw [htop, if_neg hlen]

end Topo

section Text

/-- Text is modelled as a list of characters; document and file contents,
paths and marker fragments all use this type. -/
abbrev Str := List Char

/-! ### A backtracking regular-expression engine

The source compiles its patterns with Python `re` (module top, lines
22-28, used with `re.DOTALL` at lines 254 and 290-295).  The engine
below implements the standard leftmost backtracking semantics of that
library for the constructs those patterns use: literals, `\s`, the
all-character classes (`.` under DOTALL, `[\s\S]`, `[.\s\S]`), sequencing,
prioritised alternation, greedy `*` and lazy `*?`, and numbered capture
groups (a repeated group keeps its last capture).  Fuel only bounds the
recursion depth; the callers supply enough for the texts they match. -/

inductive CharCls where
  | lit (c : Char)
  | ws
  | anyAll
  deriving DecidableEq, Repr

/-- `\s` is matched over the ASCII whitespace characters used by the
repository's documents. -/
def charClsMatch : CharCls → Char → Bool
  | .lit c, x => c == x
  | .ws, x => x == ' ' || x == '\t' || x == '\n' || x == '\r' || x == '\x0b' || x == '\x0c'
  | .anyAll, _ => true

inductive Pat where
  | eps
  | cls (c : CharCls)
  | seq (a b : Pat)
  | alt (a b : Pat)
  | starGreedy (a : Pat)
  | starLazy (a : Pat)
  | group (n : Nat) (a : Pat)
  deriving DecidableEq, Repr

/-- Capture store: latest capture of a group first. -/
abbrev Caps := List (Nat × (Nat × Nat))

def setCap (caps : Caps) (n a b : Nat) : Caps := (n, (a, b)) :: caps

def getCap (caps : Caps) (n : Nat) : Option (Nat × Nat) :=
  (caps.find? fun kv => kv.1 == n).map fun kv => kv.2

/-- Backtracking matcher in continuation-passing style.  Alternatives are
tried left first; a greedy star tries another iteration before exiting,
a lazy star exits before iterating; an iteration that consumes nothing
is not repeated (as in Python `re`). -/
def matchPat : Nat → Pat → Str → Nat → Caps →
    (Nat → Caps → Option (Nat × Caps)) → Option (Nat × Caps)
  | 0, _, _, _, _, _ => none
  | _ + 1, .eps, _, i, caps, k => k i caps
  | _ + 1, .cls c, s, i, caps, k =>
      match s.drop i with
      | [] => none
      | x :: _ => if charClsMatch c x then k (i + 1) caps else none
  | fuel + 1, .seq a b, s, i, caps, k =>
      matchPat fuel a s i caps fun j caps2 => matchPat fuel b s j caps2 k
  | fuel + 1, .alt a b, s, i, caps, k =>
      (matchPat fuel a s i caps k).orElse fun _ => matchPat fuel b s i caps k
  | fuel + 1, .starGreedy a, s, i, caps, k =>
      (matchPat fuel a s i caps fun j caps2 =>
          if j = i then none else matchPat fuel (.starGreedy a) s j caps2 k).orElse
        fun _ => k i caps
  | fuel + 1, .starLazy a, s, i, caps, k =>
      (k i caps).orElse fun _ =>
        matchPat fuel a s i caps fun j caps2 =>
          if j = i then none else matchPat fuel (.starLazy a) s j caps2 k
  | fuel + 1, .group n a, s, i, caps, k =>
      matchPat fuel a s i caps fun j caps2 => k j (setCap caps2 n i j)

/-- A sequence of literal characters. -/
def strPat (s : Str) : Pat := s.foldr (fun c p => Pat.seq (Pat.cls (CharCls.lit c)) p) Pat.eps

def wsStar : Pat := Pat.starGreedy (Pat.cls CharCls.ws)

def wsPlus : Pat := Pat.seq (Pat.cls CharCls.ws) wsStar

/-! Transliteration of the module-level patterns (source lines 22-28).
Group numbers: 1 = description, 2 = `content`, 3 = `lang`,
4 = `begin_block`, 5 = `end_block`.  The unnamed groups of the source
are omitted: capture groups never influence which text matches.
`.*?` in `LANG_PATTERN` is matched under `re.DOTALL` (every use compiles
the pattern with that flag), hence `anyAll`; `[\s\S]*?` and `[.\s\S]*`
are `anyAll` classes as well. -/

/-- `\s+content="\[([\s\S]*?)\]\((?P<content>[\s\S]*?)\)"` (line 23). -/
def CONTENT_PATTERN : Pat :=
  .seq wsPlus (.seq (strPat "content=\"[".data)
    (.seq (.group 1 (.starLazy (.cls .anyAll)))
      (.seq (strPat "](".data)
        (.seq (.group 2 (.starLazy (.cls .anyAll)))
          (strPat ")\"".data)))))

/-- `\s+lang="(?P<lang>.*?)"` (line 24). -/
def LANG_PATTERN : Pat :=
  .seq wsPlus (.seq (strPat "lang=\"".data)
    (.seq (.group 3 (.starLazy (.cls .anyAll))) (strPat "\"".data)))

/-- `((CONTENT)|(LANG))*` (line 25). -/
def VALUES_PATTERN : Pat := .starGreedy (.alt CONTENT_PATTERN LANG_PATTERN)

/-- `<!--\s*quote_begin(VALUES)\s*-->` (line 26). -/
def BEGIN_PATTERN : Pat :=
  .seq (strPat "<!--".data) (.seq wsStar (.seq (strPat "quote_begin".data)
    (.seq VALUES_PATTERN (.seq wsStar (strPat "-->".data)))))

/-- `<!--\s*quote_end\s*-->` (line 27). -/
def END_PATTERN : Pat :=
  .seq (strPat "<!--".data) (.seq wsStar (.seq (strPat "quote_end".data)
    (.seq wsStar (strPat "-->".data))))

/-- `(?P<begin_block>BEGIN)([.\s\S]*)(?P<end_block>END)` (line 28).
The middle group is unnamed in the source and never read, so it is not
numbered here; note that `[.\s\S]*` is a greedy all-character class. -/
def QUOTE_PATTERN : Pat :=
  .seq (.group 4 BEGIN_PATTERN)
    (.seq (.starGreedy (.cls .anyAll)) (.group 5 END_PATTERN))

/-- A match of `QUOTE_PATTERN`: span plus the captured groups the source
reads (`begin_block`, `end_block`, `content`, `lang`).  A group that never
captured is `none`, as `match.group` returns `None`. -/
structure QuoteMatch where
  startPos : Nat
  endPos : Nat
  begin_block : Str
  end_block : Str
  content? : Option Str
  lang? : Option Str
  deriving DecidableEq, Repr

def slice (s : Str) (a b : Nat) : Str := (s.drop a).take (b - a)

/-- Depth bound for the engine: ample for the nesting the quote pattern
produces on a text of this length. -/
def quoteFuel (s : Str) : Nat := 2 * s.length + 500

def matchQuoteAt (s : Str) (i : Nat) : Option QuoteMatch :=
  match matchPat (quoteFuel s) QUOTE_PATTERN s i [] (fun j caps => some (j, caps)) with
  | none => none
  | some (j, caps) =>
      some { startPos := i, endPos := j,
             begin_block := match getCap caps 4 with
               | some ab => slice s ab.1 ab.2
               | none => [],
             end_block := match getCap caps 5 with
               | some ab => slice s ab.1 ab.2
               | none => [],
             content? := (getCap caps 2).map fun ab => slice s ab.1 ab.2,
             lang? := (getCap caps 3).map fun ab => slice s ab.1 ab.2 }

/-- Leftmost match at or after position `i` (Python scans position by
position). -/
def searchQuoteFrom : Nat → Str → Nat → Option QuoteMatch
  | 0, _, _ => none
  | f + 1, s, i =>
      if s.length < i then none
      else match matchQuoteAt s i with
        | some m => some m
        | none => searchQuoteFrom f s (i + 1)

/-- `re.finditer(QUOTE_PATTERN, content, flags=re.DOTALL)` (line 254):
leftmost match, then continue after it.  The quote pattern never matches
the empty string, so scanning resumes at the match end. -/
def findAllQuote : Nat → Str → Nat → List QuoteMatch
  | 0, _, _ => []
  | f + 1, s, i =>
      match searchQuoteFrom (s.length + 1) s i with
      | none => []
      | some m =>
          m :: findAllQuote f s (if m.endPos = m.startPos then m.startPos + 1 else m.endPos)

def findAllQuotes (s : Str) : List QuoteMatch := findAllQuote (s.length + 1) s 0

/-- `re.sub(QUOTE_PATTERN, repl, content, flags=re.DOTALL)` (lines
290-295) with a replacement function; a `none` from the function models
the `TypeError` Python raises when the function returns `None`, which
aborts the whole substitution. -/
def reSubGo (repl : QuoteMatch → Option Str) (s : Str) : Nat → Nat → Option Str
  | 0, _ => none
  | f + 1, i =>
      match searchQuoteFrom (s.length + 1) s i with
      | none => some (s.drop i)
      | some m =>
          match repl m with
          | none => none
          | some r =>
              match reSubGo repl s f (if m.endPos = m.startPos then m.endPos + 1 else m.endPos) with
              | none => none
              | some tail => some (slice s i m.startPos ++ r ++ tail)

def reSubQuote (repl : QuoteMatch → Option Str) (s : Str) : Option Str :=
  reSubGo repl s (s.length + 1) 0

/-! ### POSIX path handling (`os.path` as used on the platform the tool
targets), the filesystem model, and `parse_path_spec`. -/

def isAbs (p : Str) : Bool :=
  match p with
  | '/' :: _ => true
  | _ => false

/-- `os.path.join(d, p)` for the two-argument POSIX case. -/
def joinPath (d p : Str) : Str :=
  if isAbs p then p
  else if d = [] then p
  else if d.getLast? = some '/' then d ++ p
  else d ++ ['/'] ++ p

def rfindIdx (p : Str) (c : Char) : Option Nat :=
  match p.reverse.findIdx? (fun x => x == c) with
  | none => none
  | some k => some (p.length - 1 - k)

def dropTrailingSlashes (s : Str) : Str :=
  (s.reverse.dropWhile (fun c => c == '/')).reverse

/-- `os.path.dirname` (POSIX): text before the last slash, with trailing
slashes stripped unless the head is all slashes. -/
def dirname (p : Str) : Str :=
  match rfindIdx p '/' with
  | none => []
  | some k =>
      let head := p.take (k + 1)
      if head.all (fun c => c == '/') then head else dropTrailingSlashes head

def splitOnSlashGo (cur : Str) : Str → List Str
  | [] => [cur.reverse]
  | '/' :: rest => cur.reverse :: splitOnSlashGo [] rest
  | c :: rest => splitOnSlashGo (c :: cur) rest

def splitOnSlash (p : Str) : List Str := splitOnSlashGo [] p

/-- The component loop of `posixpath.normpath`. -/
def normComps (hasSlashes : Bool) : List Str → List Str → List Str
  | [], acc => acc.reverse
  | c :: rest, acc =>
      if c = [] ∨ c = ['.'] then normComps hasSlashes rest acc
      else if c ≠ ['.', '.'] ∨ (¬ hasSlashes ∧ acc = [])
          ∨ (acc.head? = some ['.', '.']) then
        normComps hasSlashes rest (c :: acc)
      else
        match acc with
        | _ :: acc2 => normComps hasSlashes rest acc2
        | [] => normComps hasSlashes rest acc

def joinComps : List Str → Str
  | [] => []
  | [c] => c
  | c :: rest => c ++ ['/'] ++ joinComps rest

/-- `posixpath.normpath`. -/
def normpath (p : Str) : Str :=
  if p = [] then ['.']
  else
    let slashes : Nat :=
      if isAbs p then (if p.take 2 = ['/', '/'] ∧ p.take 3 ≠ ['/', '/', '/'] then 2 else 1)
      else 0
    let comps := normComps (slashes ≠ 0) (splitOnSlash p) []
    let res := List.replicate slashes '/' ++ joinComps comps
    if res = [] then ['.'] else res

/-- `os.path.abspath`: resolve against the working directory of the
process, then normalise. -/
def abspath (cwd p : Str) : Str := normpath (if isAbs p then p else joinPath cwd p)

/-- Source lines 223-234 (`normalized_path`): `normpath(abspath(path))`. -/
def normalized_path (cwd p : Str) : Str := normpath (abspath cwd p)

/-- The extension produced by `os.path.splitext` (POSIX): from the last
dot after the last slash, provided the basename has a non-dot character
before it. -/
def splitextExt (p : Str) : Str :=
  match rfindIdx p '.' with
  | none => []
  | some di =>
      let start := match rfindIdx p '/' with
        | none => 0
        | some si => si + 1
      if start ≤ di ∧ ((p.drop start).take (di - start)).any (fun c => c ≠ '.') then
        p.drop di
      else []

/-- Source lines 307-318 (`is_md_file`): extension, lower-cased, equals
`.md`. -/
def is_md_file (p : Str) : Bool :=
  (splitextExt p).map Char.toLower == ".md".data

/-- The filesystem: an association of normalised absolute paths to raw
file bytes (as text).  Reads resolve the requested path against the
working directory and normalise it, modelling what the operating system
does when the tool opens a relative path. -/
abbrev FS := List (Str × Str)

def readFS (fs : FS) (p : Str) : Option Str :=
  (fs.find? fun kv => kv.1 == p).map fun kv => kv.2

def writeFS : FS → Str → Str → FS
  | [], p, t => [(p, t)]
  | kv :: rest, p, t => if kv.1 = p then (p, t) :: rest else kv :: writeFS rest p t

/-- Python text mode translates `\r\n` and `\r` to `\n` when reading
(universal newlines); writing on the target platform is the identity. -/
def universalNewlines : Str → Str
  | [] => []
  | '\r' :: '\n' :: rest => '\n' :: universalNewlines rest
  | '\r' :: rest => '\n' :: universalNewlines rest
  | c :: rest => c :: universalNewlines rest

/-- Read a file as text: resolve the path, look it up, translate
newlines.  `none` models any `IOError`/decode error. -/
def readText (fs : FS) (cwd p : Str) : Option Str :=
  (readFS fs (normalized_path cwd p)).map universalNewlines

/-- `f.readlines()`: split after every newline, keeping the terminators. -/
def readlinesGo (cur : Str) : Str → List Str
  | [] => if cur = [] then [] else [cur.reverse]
  | '\n' :: rest => (cur.reverse ++ ['\n']) :: readlinesGo [] rest
  | c :: rest => readlinesGo (c :: cur) rest

def readlines (s : Str) : List Str := readlinesGo [] s

def natOfDigits (ds : Str) : Nat :=
  ds.foldl (fun n c => n * 10 + (c.toNat - '0'.toNat)) 0

/-- The suffix `#L(\d+)-L(\d+)` of the path-spec pattern, tried at one
split point: `#L`, a maximal nonempty digit run, `-L`, a maximal
nonempty digit run; anything after is ignored (the pattern has no end
anchor). -/
def parseSuffix (s : Str) : Option (Nat × Nat) :=
  match s with
  | c1 :: c2 :: rest =>
      if c1 = '#' ∧ c2 = 'L' then
        let ds := rest.takeWhile Char.isDigit
        if ds = [] then none
        else
          match rest.drop ds.length with
          | d1 :: d2 :: rest2 =>
              if d1 = '-' ∧ d2 = 'L' then
                let es := rest2.takeWhile Char.isDigit
                if es = [] then none else some (natOfDigits ds, natOfDigits es)
              else none
          | _ => none
      else none
  | _ => none

/-- Split points for `(.+)`, tried longest first (greedy, with
backtracking); `.` does not match a newline and `re.match` anchors at
the start, so the path part ranges over nonempty prefixes of the maximal
newline-free prefix. -/
def pathSpecGo (s : Str) : Nat → Option (Str × Nat × Nat)
  | 0 => none
  | i + 1 =>
      match parseSuffix (s.drop (i + 1)) with
      | some ab => some (s.take (i + 1), ab.1, ab.2)
      | none => pathSpecGo s i

/-- Source lines 119-140 (`parse_path_spec`): hand-compiled form of
`re.match(r'(.+)#L(\d+)-L(\d+)', path_spec)`; `none` models the
`(None, None, None)` result. -/
def parse_path_spec (s : Str) : Option (Str × Nat × Nat) :=
  pathSpecGo s ((s.takeWhile (fun c => c != '\n')).length)

/-- Source lines 91-116 (`extract_line_range`): read the file, clamp the
1-based inclusive bounds, return the joined slice; `none` models the
caught read error. -/
def extract_line_range (fs : FS) (cwd : Str) (p : Str) (startLine endLine : Int) : Option Str :=
  match readText fs cwd p with
  | none => none
  | some text =>
      let lines := readlines text
      let s2 : Int := max 1 (min startLine (lines.length : Int))
      let e2 : Int := max s2 (min endLine (lines.length : Int))
      some (List.flatten ((lines.drop (s2.toNat - 1)).take (e2.toNat - (s2.toNat - 1))))

/-- Source lines 143-161 (`process_parameters`).  When the `content`
group is absent Python passes `None` to `parse_path_spec`, whose
`re.match` raises `TypeError`; the raise is modelled as the outer
`none`.  A missing or empty `lang` falls back to `"text"`. -/
def process_parameters (m : QuoteMatch) : Option (Option (Str × Nat × Nat) × Str) :=
  match m.content? with
  | none => none
  | some c =>
      let lang := match m.lang? with
        | some l => if l = [] then "text".data else l
        | none => "text".data
      some (parse_path_spec c, lang)

/-- Source lines 164-178 (`to_full_path`). -/
def to_full_path (p : Str) (mdDir : Str) : Str :=
  if isAbs p then p else joinPath mdDir p

/-- Source lines 181-220 (`process_quote_block`): `none` models the
explicit `return None`s (unresolvable spec, failed read); the caller
treats it as Python treats the ensuing `TypeError` from `re.sub`. -/
def process_quote_block (fs : FS) (cwd mdDir : Str) (m : QuoteMatch) : Option Str :=
  match process_parameters m with
  | none => none
  | some (none, _) => none
  | some (some (fp, s, e), lang) =>
      let full := to_full_path fp mdDir
      match extract_line_range fs cwd full (s : Int) (e : Int) with
      | none => none
      | some text =>
          let body := if lang ≠ "text".data
            then "```".data ++ lang ++ "\n".data ++ text ++ "```".data
            else "\n".data ++ text
          some (m.begin_block ++ "\n".data ++ body ++ "\n".data ++ m.end_block)

/-- Source lines 276-304 (`process_md_file`): substitute every quote
block, write back only when the text changed; any exception (unreadable
file, `TypeError` out of `re.sub`) leaves the filesystem untouched. -/
def process_md_file (fs : FS) (cwd mdPath : Str) : FS :=
  match readText fs cwd mdPath with
  | none => fs
  | some content =>
      let mdDir := dirname mdPath
      match reSubQuote (process_quote_block fs cwd mdDir) content with
      | none => fs
      | some newContent =>
          if newContent ≠ content then writeFS fs (normalized_path cwd mdPath) newContent
          else fs

/-- `{key: set_of_dependents}` built by pass 1. -/
abbrev DepMap := List (Str × List Str)

/-- Add `v` to the set stored under `k` (insertion-ordered dict of
insertion-ordered sets), source lines 265-270. -/
def addDep : DepMap → Str → Str → DepMap
  | [], k, v => [(k, [v])]
  | kv :: rest, k, v =>
      if kv.1 = k then
        (if v ∈ kv.2 then kv :: rest else (kv.1, kv.2 ++ [v]) :: rest)
      else kv :: addDep rest k v

/-- The match loop of `pre_process_md_file` (source lines 260-270).  An
unresolvable or absent `content` raises `TypeError` inside the loop
(`re.match` on `None`, or `os.path.isabs(None)` in `to_full_path`),
which aborts the loop; edges already added stay in the shared map. -/
def pre_process_go (cwd mdDir thisNorm : Str) : List QuoteMatch → DepMap → DepMap
  | [], m => m
  | mt :: rest, m =>
      match process_parameters mt with
      | none => m
      | some (none, _) => m
      | some (some (fp, _, _), _) =>
          pre_process_go cwd mdDir thisNorm rest
            (addDep m (normalized_path cwd (to_full_path fp mdDir)) thisNorm)

/-- Source lines 237-273 (`pre_process_md_file`). -/
def pre_process_md_file (fs : FS) (cwd mdPath : Str) (depMap : DepMap) : DepMap :=
  match readText fs cwd mdPath with
  | none => depMap
  | some content =>
      pre_process_go cwd (dirname mdPath) (normalized_path cwd mdPath)
        (findAllQuotes content) depMap

/-- First pass of `main` (source lines 354-357). -/
def pass1 (fs : FS) (cwd : Str) (files : List Str) : DepMap :=
  files.foldl (fun m f => pre_process_md_file fs cwd f m) []

/-- Second pass of `main` (source lines 362-365): process the scheduled
files in order, skipping non-markdown nodes. -/
def pass2 (fs : FS) (cwd : Str) (files : List Str) : FS :=
  files.foldl (fun acc f => if is_md_file f then process_md_file acc cwd f else acc) fs

end Text

section ConcreteInputs

/-! Concrete documents and filesystems used to evaluate the model. -/

/-- Working directory of the modelled process. -/
def cwd0 : Str := "/w".data

def endMarker : Str := "<!-- quote_end -->".data

/-- A well-formed begin marker referencing `f.txt` lines 1-2, no `lang`. -/
def beginOk : Str := "<!-- quote_begin content=\"[d](f.txt#L1-L2)\" -->".data

/-- A well-formed begin marker referencing a file that does not exist. -/
def beginMissing : Str := "<!-- quote_begin content=\"[d](missing.txt#L1-L2)\" -->".data

/-- A well-formed begin marker whose `content` value parses as no
path-spec. -/
def beginUnresolvable : Str := "<!-- quote_begin content=\"[x](not-a-valid-spec)\" -->".data

/-- One complete quote block (minimal spelling). -/
def blockOne : Str := "<!--quote_begin content=\"[a](f#L1-L1)\"-->X<!--quote_end-->".data

def blockTwo : Str := "<!--quote_begin content=\"[b](g#L1-L1)\"-->Z<!--quote_end-->".data

/-- Two complete, disjoint, well-formed blocks with prose between them. -/
def twoBlockText : Str := blockOne ++ "Y".data ++ blockTwo

/-- Document with a failing first block (missing file) and a readable
second block. -/
def docMissingFirst : Str :=
  beginMissing ++ "\nx\n".data ++ endMarker ++ "\nmid\n".data
    ++ beginOk ++ "\ny\n".data ++ endMarker

def fsMissingFirst : FS :=
  [("/w/doc.md".data, docMissingFirst), ("/w/f.txt".data, "alpha\nbeta\n".data)]

/-- Document with a resolvable first block and an unresolvable second
block. -/
def docUnresolvableSecond : Str :=
  beginOk ++ "\nx\n".data ++ endMarker ++ "\nmid\n".data
    ++ beginUnresolvable ++ "\ny\n".data ++ endMarker

def fsUnresolvableSecond : FS :=
  [("/w/doc.md".data, docUnresolvableSecond), ("/w/f.txt".data, "alpha\nbeta\n".data)]

/-- What the tool actually writes for `docUnresolvableSecond`: one merged
block, the unresolvable marker and both stale bodies gone. -/
def docUnresolvableSecondOut : Str := beginOk ++ "\n\nalpha\nbeta\n\n".data ++ endMarker

/-- Document with an unresolvable first block and a resolvable second
block. -/
def docUnresolvableFirst : Str :=
  beginUnresolvable ++ "\nx\n".data ++ endMarker ++ "\nmid\n".data
    ++ beginOk ++ "\ny\n".data ++ endMarker

def fsUnresolvableFirst : FS :=
  [("/w/doc.md".data, docUnresolvableFirst), ("/w/f.txt".data, "alpha\nbeta\n".data)]

/-- A ten-line file for the range-clamping examples. -/
def tenLines : Str :=
  "l1\nl2\nl3\nl4\nl5\nl6\nl7\nl8\nl9\nl10\n".data

def fsTen : FS := [("/w/ten.txt".data, tenLines)]

/-- Decidable substring test (used to state that a marker survives or
vanishes). -/
def containsSub (hay needle : Str) : Bool :=
  (List.range (hay.length + 1)).any fun i => (hay.drop i).take needle.length == needle

end ConcreteInputs

end MarkdownQuote

namespace MarkdownQuote

/-- C1: for every acyclic dependency graph (a map from node to the set of
nodes depending on it), `topological_sort` returns a list that contains
every node of the graph exactly once (it is duplicate-free and its
membership coincides with the node set), and for every edge `u -> v` the
index of `u` in the returned list is strictly less than the index of
`v`. -/
theorem claim_C1_topological_sort_acyclic {ν : Type} [DecidableEq ν]
    (deps : List (ν × List ν))
    (hacyc : ∀ x : ν, ¬ Relation.TransGen (fun a b : ν => (a, b) ∈ edgesOf deps) x x) :
    ((topological_sort deps).Nodup ∧
      (∀ x, x ∈ topological_sort deps ↔ x ∈ allNodes deps)) ∧
    ∀ u v : ν, (u, v) ∈ edgesOf deps →
      (topological_sort deps).indexOf u < (topological_sort deps).indexOf v := by
  obtain ⟨h1, h2, h3⟩ := kahn_sorted deps hacyc
  exact ⟨⟨h1, h2⟩, h3⟩

/-- Witness for C1 at the concrete acyclic graph `{1 ↦ {2}}`. -/
theorem claim_C1_witness :
    ((topological_sort [(1, [2])]).Nodup ∧
      (∀ x, x ∈ topological_sort [(1, [2])] ↔ x ∈ allNodes [(1, [2])])) ∧
    ∀ u v : Nat, (u, v) ∈ edgesOf [(1, [2])] →
      (topological_sort [(1, [2])]).indexOf u < (topological_sort [(1, [2])]).indexOf v := by
  have hedges : edgesOf [(1, [2])] = [(1, 2)] := rfl
  have hacyc : ∀ x : Nat,
      ¬ Relation.TransGen (fun a b : Nat => (a, b) ∈ edgesOf [(1, [2])]) x x := by
    have key : ∀ a b : Nat,
        Relation.TransGen (fun a b : Nat => (a, b) ∈ edgesOf [(1, [2])]) a b →
          a = 1 ∧ b = 2 := by
      intro a b h
      induction h with
      | single h1 =>
          rw [hedges, List.mem_singleton] at h1
          exact ⟨congrArg Prod.fst h1, congrArg Prod.snd h1⟩
      | tail _ h1 ih =>
          rw [hedges, List.mem_singleton] at h1
          have hc1 : _ = 1 := congrArg Prod.fst h1
          omega
    intro x hx
    have := key x x hx
    omega
  exact claim_C1_topological_sort_acyclic [(1, [2])] hacyc

/-- C2: when the dependency graph has a cycle, `topological_sort` signals
failure for the whole run by returning `[]`, and consequently the pass-2
loop of `main` rewrites nothing: the filesystem after pass 2 is exactly
the filesystem before it. -/
theorem claim_C2_cycle_aborts_run (deps : List (Str × List Str)) (x : Str)
    (hcyc : Relation.TransGen (fun a b : Str => (a, b) ∈ edgesOf deps) x x) :
    topological_sort deps = [] ∧
      ∀ (fs : FS) (cwd : Str), pass2 fs cwd (topological_sort deps) = fs := by
  have h := kahn_cycle_nil deps x hcyc
  refine ⟨h, fun fs cwd => ?_⟩
  rw [h]
  rfl

/-- Witness for C2 at the concrete one-node cycle `{a ↦ {a}}`. -/
theorem claim_C2_witness :
    topological_sort [("a".data, ["a".data])] = [] ∧
      ∀ (fs : FS) (cwd : Str),
        pass2 fs cwd (topological_sort [("a".data, ["a".data])]) = fs :=
  claim_C2_cycle_aborts_run [("a".data, ["a".data])] "a".data
    (Relation.TransGen.single (by decide))

set_option maxRecDepth 400000 in
/-- C3 (counter-evaluation): the quote-block pattern matches greedily, not
non-greedily.  On a text with two well-formed, disjoint blocks —
each of which matches on its own — the scanner of the source finds a
single match that spans from the first begin marker to the last end
marker; the two blocks are merged and the prose between them is treated
as block body. -/
theorem claim_C3_greedy_merges_blocks :
    (findAllQuotes blockOne).length = 1 ∧
    (findAllQuotes blockTwo).length = 1 ∧
    (findAllQuotes twoBlockText).map (fun m => (m.startPos, m.endPos))
      = [(0, twoBlockText.length)] ∧
    (findAllQuotes twoBlockText).map (fun m => (m.begin_block, m.end_block))
      = [("<!--quote_begin content=\"[a](f#L1-L1)\"-->".data, "<!--quote_end-->".data)] := by
  decide

set_option maxRecDepth 400000 in
/-- C4 (counter-evaluation): a block whose referenced file cannot be read
is not recovered locally.  On a document whose first block references a
missing file and whose second block is readable, `process_md_file`
leaves the filesystem untouched: the readable block is NOT substituted
(the replacement callback returns `None`, `re.sub` raises `TypeError`,
and the whole document is skipped). -/
theorem claim_C4_read_error_aborts_document :
    process_md_file fsMissingFirst cwd0 "/w/doc.md".data = fsMissingFirst ∧
    readFS fsMissingFirst
      (normalized_path cwd0 (to_full_path "missing.txt".data (dirname "/w/doc.md".data)))
      = none ∧
    extract_line_range fsMissingFirst cwd0
      (to_full_path "f.txt".data (dirname "/w/doc.md".data)) 1 2
      = some "alpha\nbeta\n".data ∧
    containsSub docMissingFirst beginOk = true := by
  decide

set_option maxRecDepth 400000 in
/-- C8 (counter-evaluation): a quote block with an unresolvable `content`
value is NOT byte-identical before and after processing when another,
resolvable block precedes it: the greedy pattern merges the two blocks,
and the rewrite deletes the unresolvable block's begin marker and stale
body.  (Only a document whose merged match itself fails is left
unchanged.) -/
theorem claim_C8_unresolvable_block_not_preserved :
    process_md_file fsUnresolvableSecond cwd0 "/w/doc.md".data
      = [("/w/doc.md".data, docUnresolvableSecondOut),
         ("/w/f.txt".data, "alpha\nbeta\n".data)] ∧
    containsSub docUnresolvableSecond beginUnresolvable = true ∧
    containsSub docUnresolvableSecondOut beginUnresolvable = false ∧
    parse_path_spec "not-a-valid-spec".data = none := by
  decide

set_option maxRecDepth 400000 in
/-- C9 (counter-evaluation): the pass-1 scan does not skip an
unresolvable block and carry on.  On a document whose first block is
unresolvable and whose second block is resolvable, `pre_process_md_file`
records no edge at all (the unresolvable parameters raise `TypeError`
inside the loop).  When a resolvable block is seen, the recorded edge is
`referenced_identity -> this_document_identity` with both paths
normalised (last conjunct). -/
theorem claim_C9_unresolvable_aborts_scan :
    pre_process_md_file fsUnresolvableFirst cwd0 "/w/doc.md".data [] = [] ∧
    parse_path_spec "f.txt#L1-L2".data = some ("f.txt".data, 1, 2) ∧
    containsSub docUnresolvableFirst beginOk = true ∧
    pre_process_md_file fsUnresolvableSecond cwd0 "/w/doc.md".data []
      = [("/w/f.txt".data, ["/w/doc.md".data])] := by
  decide

/-- C7: a successfully extracted block is rebuilt between its original
begin and end markers; with a `lang` attribute other than `text` the
body is a fenced code block tagged with the language and closed by a
bare fence, with no `lang` (or `lang="text"`) the body is the extracted
content preceded by a single newline and no fence. -/
theorem claim_C7_formatting (fs : FS) (cwd mdDir : Str) (m : QuoteMatch)
    (spec fp : Str) (a b : Nat) (text : Str)
    (hc : m.content? = some spec)
    (hp : parse_path_spec spec = some (fp, a, b))
    (hx : extract_line_range fs cwd (to_full_path fp mdDir) (a : Int) (b : Int) = some text) :
    ∃ body : Str,
      process_quote_block fs cwd mdDir m
          = some (m.begin_block ++ "\n".data ++ body ++ "\n".data ++ m.end_block) ∧
      (∀ l : Str, m.lang? = some l → l ≠ [] → l ≠ "text".data →
          body = "```".data ++ l ++ "\n".data ++ text ++ "```".data) ∧
      ((m.lang? = none ∨ m.lang? = some "text".data) → body = "\n".data ++ text) := by
  cases hl : m.lang? with
  | none =>
      refine ⟨"\n".data ++ text, ?_, ?_, fun _ => rfl⟩
      · simp [process_quote_block, process_parameters, hc, hl, hp, hx]
      · intro l hl2
        cases hl2
  | some l =>
      by_cases hnil : l = []
      · refine ⟨"\n".data ++ text, ?_, ?_, fun _ => rfl⟩
        · simp [process_quote_block, process_parameters, hc, hl, hp, hx, hnil]
        · intro l2 hl2 hne _
          cases hl2
          exact absurd hnil hne
      · by_cases htext : l = "text".data
        · refine ⟨"\n".data ++ text, ?_, ?_, fun _ => rfl⟩
          · simp [process_quote_block, process_parameters, hc, hl, hp, hx, hnil, htext]
          · intro l2 hl2 _ hne
            cases hl2
            exact absurd htext hne
        · refine ⟨"```".data ++ l ++ "\n".data ++ text ++ "```".data, ?_, ?_, ?_⟩
          · simp [process_quote_block, process_parameters, hc, hl, hp, hx, hnil, htext]
          · intro l2 hl2 _ _
            cases hl2
            rfl
          · intro hor
            rcases hor with hor | hor
            · cases hor
            · cases hor
              exact absurd rfl htext

/-- Witness for C7: a concrete block with `lang="rust"` quoting lines 1-2
of a two-line file. -/
theorem claim_C7_witness :
    ∃ body : Str,
      process_quote_block [("/w/f.txt".data, "alpha\nbeta\n".data)] cwd0 "/w".data
          { startPos := 0, endPos := 0, begin_block := "<b>".data, end_block := "<e>".data,
            content? := some "f.txt#L1-L2".data, lang? := some "rust".data }
          = some ("<b>".data ++ "\n".data ++ body ++ "\n".data ++ "<e>".data) ∧
      (∀ l : Str,
        ({ startPos := 0, endPos := 0, begin_block := "<b>".data, end_block := "<e>".data,
           content? := some "f.txt#L1-L2".data,
           lang? := some "rust".data } : QuoteMatch).lang? = some l →
          l ≠ [] → l ≠ "text".data →
          body = "```".data ++ l ++ "\n".data ++ "alpha\nbeta\n".data ++ "```".data) ∧
      ((({ startPos := 0, endPos := 0, begin_block := "<b>".data, end_block := "<e>".data,
           content? := some "f.txt#L1-L2".data,
           lang? := some "rust".data } : QuoteMatch).lang? = none ∨
        ({ startPos := 0, endPos := 0, begin_block := "<b>".data, end_block := "<e>".data,
           content? := some "f.txt#L1-L2".data,
           lang? := some "rust".data } : QuoteMatch).lang? = some "text".data) →
          body = "\n".data ++ "alpha\nbeta\n".data) :=
  claim_C7_formatting _ cwd0 "/w".data _ "f.txt#L1-L2".data "f.txt".data 1 2
    "alpha\nbeta\n".data rfl (by decide) (by decide)

/-- C6: on every readable file, `extract_line_range` clamps the start
line into `[1, total_lines]` and the end line into `[start, total_lines]`
and returns the concatenation of the selected inclusive 1-based lines
with their terminators; in particular lines 5-100 of the ten-line file
give lines 5-10, and lines 20-25 give line 10 alone. -/
theorem claim_C6_extract_clamps :
    (∀ (fs : FS) (cwd p t : Str) (s e : Int),
      readText fs cwd p = some t → 0 < (readlines t).length →
      ∃ a b : Nat,
        1 ≤ a ∧ a ≤ (readlines t).length ∧ a ≤ b ∧ b ≤ (readlines t).length ∧
        (a : Int) = max 1 (min s ((readlines t).length : Int)) ∧
        (b : Int) = max (a : Int) (min e ((readlines t).length : Int)) ∧
        extract_line_range fs cwd p s e
          = some (List.flatten (((readlines t).drop (a - 1)).take (b + 1 - a)))) ∧
    extract_line_range fsTen cwd0 "ten.txt".data 5 100
      = some "l5\nl6\nl7\nl8\nl9\nl10\n".data ∧
    extract_line_range fsTen cwd0 "ten.txt".data 20 25 = some "l10\n".data := by
  refine ⟨?_, by decide, by decide⟩
  intro fs cwd p t s e hread hlen
  have hn1 : (1 : Int) ≤ ((readlines t).length : Int) := by exact_mod_cast hlen
  set n : Int := ((readlines t).length : Int) with hn
  set s2 : Int := max 1 (min s n) with hs2
  set e2 : Int := max s2 (min e n) with he2
  have hs2a : (1 : Int) ≤ s2 := le_max_left _ _
  have hs2b : s2 ≤ n := max_le hn1 (min_le_right s n)
  have he2a : s2 ≤ e2 := le_max_left _ _
  have he2b : e2 ≤ n := max_le hs2b (min_le_right e n)
  refine ⟨s2.toNat, e2.toNat, by omega, by omega, by omega, by omega, by omega, ?_, ?_⟩
  · have : (e2.toNat : Int) = e2 := Int.toNat_of_nonneg (by omega)
    rw [this]
    have hcast : ((s2.toNat : Int)) = s2 := Int.toNat_of_nonneg (by omega)
    rw [he2, hcast]
  · show extract_line_range fs cwd p s e = _
    simp only [extract_line_range, hread]
    have harith : e2.toNat - (s2.toNat - 1) = e2.toNat + 1 - s2.toNat := by omega
    rw [← hn, ← hs2, ← he2, harith]

/-- C10 (counterexample): with path `f`, line digits `1` and `2` and the
nonempty trailing suffix `3x`, the claim predicts end line 2; the parser
actually consumes the suffix digit and yields end line 23. -/
theorem claim_C10_counterexample :
    parse_path_spec ("f".data ++ "#L".data ++ "1".data ++ "-L".data ++ "2".data ++ "3x".data)
      = some ("f".data, 1, 23) ∧ (23 : Nat) ≠ 2 := by
  decide

theorem parseSuffix_not_hash {c : Char} (t : Str) (hc : c ≠ '#') :
    parseSuffix (c :: t) = none := by
  cases t with
  | nil => rfl
  | cons c2 r => simp [parseSuffix, hc]

theorem parseSuffix_no_hash_prefix (l suffix : Str) (h : ∀ c ∈ l, c ≠ '#') :
    ∀ j, j < l.length → parseSuffix ((l ++ suffix).drop j) = none := by
  induction l with
  | nil => intro j hj; simp at hj
  | cons c t ih =>
      intro j hj
      cases j with
      | zero =>
          simp only [List.cons_append, List.drop_zero]
          exact parseSuffix_not_hash _ (h c (List.mem_cons_self _ _))
      | succ j2 =>
          simp only [List.cons_append, List.drop_succ_cons]
          exact ih (fun x hx => h x (List.mem_cons_of_mem _ hx)) j2 (by simpa using hj)

theorem takeWhile_append_sat {pred : Char → Bool} (l1 l2 : Str) (h : ∀ c ∈ l1, pred c) :
    (l1 ++ l2).takeWhile pred = l1 ++ l2.takeWhile pred := by
  induction l1 with
  | nil => simp
  | cons c t ih =>
      have hc := h c (List.mem_cons_self _ _)
      have ht := ih (fun x hx => h x (List.mem_cons_of_mem _ hx))
      simp [List.takeWhile_cons, hc, ht]

theorem takeWhile_append_stop {pred : Char → Bool} (l1 l2 : Str) (h1 : ∀ c ∈ l1, pred c)
    (h2 : ∀ c, l2.head? = some c → ¬ pred c) : (l1 ++ l2).takeWhile pred = l1 := by
  rw [takeWhile_append_sat l1 l2 h1]
  cases l2 with
  | nil => simp
  | cons c r =>
      have := h2 c rfl
      rw [List.takeWhile_cons]
      simp only [Bool.not_eq_true] at this
      rw [this]
      simp

theorem drop_append_plus (l1 l2 : Str) (k : Nat) :
    (l1 ++ l2).drop (l1.length + k) = l2.drop k := by
  induction l1 with
  | nil => simp
  | cons c t ih =>
      rw [List.cons_append, List.length_cons]
      have : t.length + 1 + k = (t.length + k) + 1 := by omega
      rw [this, List.drop_succ_cons]
      exact ih

theorem take_append_left (l1 l2 : Str) : (l1 ++ l2).take l1.length = l1 := by
  induction l1 with
  | nil => simp
  | cons c t ih =>
      rw [List.cons_append, List.length_cons, List.take_succ_cons, ih]

theorem takeWhile_length_le {pred : Char → Bool} (l : Str) :
    (l.takeWhile pred).length ≤ l.length := by
  induction l with
  | nil => simp
  | cons c t ih =>
      rw [List.takeWhile_cons]
      by_cases h : pred c
      · simp only [h, if_true, List.length_cons]
        omega
      · simp only [h]
        simp

theorem pathSpecGo_skip (s : Str) :
    ∀ i j, j ≤ i → (∀ t, j < t → t ≤ i → parseSuffix (s.drop t) = none) →
      pathSpecGo s i = pathSpecGo s j := by
  intro i
  induction i with
  | zero =>
      intro j hj _
      have : j = 0 := by omega
      rw [this]
  | succ i2 ih =>
      intro j hj hnone
      rcases Nat.eq_or_lt_of_le hj with heq | hlt
      · rw [heq]
      · have h0 := hnone (i2 + 1) (by omega) (le_refl _)
        simp only [pathSpecGo, h0]
        exact ih j (by omega) (fun t ht1 ht2 => hnone t ht1 (by omega))

theorem isDigit_ne_hash {c : Char} (hd : c.isDigit) : c ≠ '#' := by
  intro hc
  rw [hc] at hd
  exact absurd hd (by decide)

theorem isDigit_ne_newline {c : Char} (hd : c.isDigit) : c ≠ '\n' := by
  intro hc
  rw [hc] at hd
  exact absurd hd (by decide)

theorem parseSuffix_exact (a b rest : Str) (ha : a ≠ []) (had : ∀ c ∈ a, c.isDigit)
    (hb : b ≠ []) (hbd : ∀ c ∈ b, c.isDigit)
    (hstopb : ∀ c, rest.head? = some c → ¬ c.isDigit) :
    parseSuffix ('#' :: 'L' :: (a ++ '-' :: 'L' :: (b ++ rest)))
      = some (natOfDigits a, natOfDigits b) := by
  have hstop1 : ∀ c : Char, ('-' :: 'L' :: (b ++ rest)).head? = some c → ¬ c.isDigit := by
    intro c hc
    cases hc
    decide
  have hds : (a ++ '-' :: 'L' :: (b ++ rest)).takeWhile Char.isDigit = a :=
    takeWhile_append_stop a ('-' :: 'L' :: (b ++ rest)) had hstop1
  have hes : (b ++ rest).takeWhile Char.isDigit = b :=
    takeWhile_append_stop b rest hbd hstopb
  have hdp : (a ++ '-' :: 'L' :: (b ++ rest)).drop a.length = '-' :: 'L' :: (b ++ rest) := by
    have h0 := drop_append_plus a ('-' :: 'L' :: (b ++ rest)) 0
    simp only [Nat.add_zero, List.drop_zero] at h0
    exact h0
  simp only [parseSuffix, hds]
  rw [if_pos (⟨trivial, trivial⟩ : True ∧ True), if_neg ha, hdp]
  simp [hes, hb]

/-- C10 (amended): `parse_path_spec` does not anchor the end of its
match.  For every nonempty newline-free path `p`, nonempty digit strings
`a` and `b`, and nonempty trailing suffix `s` that does not start with a
digit and contains no occurrence of the form `#L<digits>-L<digits>`,
the input `p#La-Lb` followed by `s` is accepted with path `p`,
start line `a` and end line `b`, the suffix silently ignored; and line
number 0 is accepted by the parser rather than rejected. -/
theorem claim_C10_amended_unanchored (p s a b : Str)
    (hp : p ≠ []) (hpn : ∀ c ∈ p, c ≠ '\n')
    (ha : a ≠ []) (had : ∀ c ∈ a, c.isDigit)
    (hb : b ≠ []) (hbd : ∀ c ∈ b, c.isDigit)
    (_hs : s ≠ []) (hs0 : ∀ c, s.head? = some c → ¬ c.isDigit)
    (hsclean : ∀ i, i ≤ s.length → parseSuffix (s.drop i) = none) :
    parse_path_spec (p ++ "#L".data ++ a ++ "-L".data ++ b ++ s)
      = some (p, natOfDigits a, natOfDigits b) ∧
    parse_path_spec "f#L0-L5".data = some ("f".data, 0, 5) := by
  refine ⟨?_, by decide⟩
  have hL : ("#L".data : Str) = ['#', 'L'] := rfl
  have hmL : ("-L".data : Str) = ['-', 'L'] := rfl
  set tail : Str := '#' :: 'L' :: (a ++ '-' :: 'L' :: (b ++ s)) with htail
  have hwhole : p ++ "#L".data ++ a ++ "-L".data ++ b ++ s = p ++ tail := by
    rw [hL, hmL, htail]
    simp [List.append_assoc]
  rw [hwhole]
  -- the hash-free region between the `#` and the suffix
  set L1 : Str := 'L' :: (a ++ '-' :: 'L' :: b) with hL1
  have htail2 : tail = '#' :: (L1 ++ s) := by
    rw [htail, hL1]
    simp [List.append_assoc]
  have hL1hash : ∀ c ∈ L1, c ≠ '#' := by
    intro c hc
    rw [hL1] at hc
    rcases List.mem_cons.mp hc with rfl | hc2
    · decide
    · rcases List.mem_append.mp hc2 with hc3 | hc3
      · exact isDigit_ne_hash (had c hc3)
      · rcases List.mem_cons.mp hc3 with rfl | hc4
        · decide
        · rcases List.mem_cons.mp hc4 with rfl | hc5
          · decide
          · exact isDigit_ne_hash (hbd c hc5)
  have hLlen : tail.length = 1 + (L1.length + s.length) := by
    rw [htail2]
    simp
    omega
  -- dropping strictly inside the tail never parses
  have hdrop_tail : ∀ k, 1 ≤ k → k ≤ tail.length → parseSuffix (tail.drop k) = none := by
    intro k hk1 hk2
    obtain ⟨k2, rfl⟩ : ∃ k2, k = k2 + 1 := ⟨k - 1, by omega⟩
    rw [htail2, List.drop_succ_cons]
    by_cases hk3 : k2 < L1.length
    · exact parseSuffix_no_hash_prefix L1 s hL1hash k2 hk3
    · obtain ⟨j, rfl⟩ : ∃ j, k2 = L1.length + j := ⟨k2 - L1.length, by omega⟩
      rw [drop_append_plus]
      exact hsclean j (by omega)
  -- the parse at the true split point
  have hparse_tail : parseSuffix tail = some (natOfDigits a, natOfDigits b) := by
    rw [htail]
    exact parseSuffix_exact a b s ha had hb hbd hs0
  -- the leftmost-longest scan of `(.+)` stops at the true split point
  show pathSpecGo (p ++ tail)
      (((p ++ tail).takeWhile (fun c => c != '\n')).length) = _
  have hpred : ∀ c ∈ p, (c != '\n') = true := by
    intro c hc
    simpa [bne_iff_ne] using hpn c hc
  have htw : (p ++ tail).takeWhile (fun c => c != '\n')
      = p ++ tail.takeWhile (fun c => c != '\n') :=
    takeWhile_append_sat p tail hpred
  set m := (((p ++ tail).takeWhile (fun c => c != '\n'))).length with hm
  have hm2 : m = p.length + (tail.takeWhile (fun c => c != '\n')).length := by
    rw [hm, htw]
    simp
  have hmle : (tail.takeWhile (fun c => c != '\n')).length ≤ tail.length :=
    takeWhile_length_le _
  have hnone : ∀ t, p.length < t → t ≤ m → parseSuffix ((p ++ tail).drop t) = none := by
    intro t ht1 ht2
    obtain ⟨k, rfl⟩ : ∃ k, t = p.length + k := ⟨t - p.length, by omega⟩
    rw [drop_append_plus]
    exact hdrop_tail k (by omega) (by omega)
  rw [pathSpecGo_skip (p ++ tail) m p.length (by omega) hnone]
  obtain ⟨pl, hpl⟩ : ∃ pl, p.length = pl + 1 := by
    cases hp2 : p.length with
    | zero => exact absurd (List.eq_nil_of_length_eq_zero hp2) hp
    | succ n => exact ⟨n, rfl⟩
  rw [hpl]
  simp only [pathSpecGo]
  have hdrop0 : (p ++ tail).drop (pl + 1) = tail := by
    rw [← hpl]
    have h0 := drop_append_plus p tail 0
    simp only [Nat.add_zero, List.drop_zero] at h0
    exact h0
  have htake : (p ++ tail).take (pl + 1) = p := by
    rw [← hpl]
    exact take_append_left p tail
  rw [hdrop0, hparse_tail]
  simp [htake]

/-- Witness for C10 (amended) at path `f`, digits `1` and `2`, suffix
`xyz`. -/
theorem claim_C10_witness :
    parse_path_spec ("f".data ++ "#L".data ++ "1".data ++ "-L".data ++ "2".data ++ "xyz".data)
      = some ("f".data, natOfDigits "1".data, natOfDigits "2".data) ∧
    parse_path_spec "f#L0-L5".data = some ("f".data, 0, 5) :=
  claim_C10_amended_unanchored "f".data "xyz".data "1".data "2".data
    (by decide) (by decide) (by decide) (by decide) (by decide) (by decide)
    (by decide) (by decide) (by decide)

/-- Witness for C6: the clamp description instantiated on the ten-line
file with the requested range 5-100. -/
theorem claim_C6_witness :
    ∃ a b : Nat,
      1 ≤ a ∧ a ≤ (readlines tenLines).length ∧ a ≤ b ∧ b ≤ (readlines tenLines).length ∧
      (a : Int) = max 1 (min 5 ((readlines tenLines).length : Int)) ∧
      (b : Int) = max (a : Int) (min 100 ((readlines tenLines).length : Int)) ∧
      extract_line_range fsTen cwd0 "ten.txt".data 5 100
        = some (List.flatten (((readlines tenLines).drop (a - 1)).take (b + 1 - a))) :=
  claim_C6_extract_clamps.1 fsTen cwd0 "ten.txt".data tenLines 5 100 (by decide) (by decide)

end MarkdownQuote

